import Mathlib

set_option maxHeartbeats 1000000

namespace WikiVerify

/-!
Embedding of the citation-verification core of the wikiverify repository.

Texts are sequences of characters, modelled as `List Char`; machine floats
of the similarity computation are modelled as rationals; the Python
`requests`/database/LLM collaborators are modelled by explicit outcome
parameters.
-/

namespace Difflib

/-!
Embedding of CPython 3.11 `difflib.SequenceMatcher` as instantiated by
`ContentExtractor.calculate_similarity` (src/core/content_extractor.py):
`SequenceMatcher(None, text1, text2).ratio()`, i.e. `isjunk` is `None`
(empty junk set) and `autojunk` is on.
-/

/-- The ascending list of positions at which character `c` occurs in `b`:
the raw `b2j[c]` entry built by `SequenceMatcher.__chain_b`. -/
def positions (c : Char) (b : List Char) : List Nat :=
  (List.range b.length).filter (fun j => b.getD j default = c)

/-- Number of occurrences of `c` in `b` (`len(b2j[c])`). -/
def countOcc (c : Char) (b : List Char) : Nat := (positions c b).length

/-- The autojunk "popular" test of `__chain_b`: when `len(b) >= 200`,
characters occurring more than `len(b) // 100 + 1` times are purged from
`b2j`.  The junk set itself is empty because `isjunk` is `None`. -/
def isPopular (b : List Char) (c : Char) : Bool :=
  decide (200 ≤ b.length) && decide (b.length / 100 + 1 < countOcc c b)

/-- `b2j` after purging popular entries. -/
def b2j (b : List Char) (c : Char) : List Nat :=
  if isPopular b c then [] else positions c b

/-- `j2len.get(j-1, 0)`: Python evaluates `j-1` as `-1` when `j = 0` and a
dict never holds a negative key, so the default `0` is returned there. -/
def prevAt (d : Nat → Nat) (j : Nat) : Nat :=
  match j with
  | 0 => 0
  | j' + 1 => d j'

/-- The inner `for j in b2j.get(a[i], nothing)` loop of
`find_longest_match`: `prev` is the previous row's `j2len` (captured by
`j2lenget` before the loop), `cur` the `newj2len` dict being built, and
`best` the running `(besti, bestj, bestsize)`.  `j < blo` continues,
`j >= bhi` breaks out of the loop. -/
def innerLoop (prev : Nat → Nat) (i blo bhi : Nat) :
    List Nat → (Nat → Nat) → Nat × Nat × Nat → (Nat → Nat) × (Nat × Nat × Nat)
  | [], cur, best => (cur, best)
  | j :: js, cur, best =>
    if j < blo then innerLoop prev i blo bhi js cur best
    else if bhi ≤ j then (cur, best)
    else
      let k := prevAt prev j + 1
      innerLoop prev i blo bhi js (fun x => if x = j then k else cur x)
        (if best.2.2 < k then (i + 1 - k, j + 1 - k, k) else best)

/-- The outer `for i in range(alo, ahi)` loop of `find_longest_match`;
after each row the freshly built dict becomes `j2len`. -/
def outerLoop (a : List Char) (bjf : Char → List Nat) (blo bhi : Nat) :
    List Nat → (Nat → Nat) → Nat × Nat × Nat → Nat × Nat × Nat
  | [], _, best => best
  | i :: rest, prev, best =>
    let st := innerLoop prev i blo bhi (bjf (a.getD i default)) (fun _ => 0) best
    outerLoop a bjf blo bhi rest st.1 st.2

/-- First post-loop extension of `find_longest_match`: extend the best
block backwards over equal non-junk elements (the junk set is empty, so
`not isbjunk(...)` is always true).  The recursion is structural on
`besti`, which the loop decrements while `alo < besti`: at `besti = 0` the
loop condition is false. -/
def extBack (a b : List Char) (alo blo : Nat) : Nat → Nat → Nat → Nat × Nat × Nat
  | 0, bj, bs => (0, bj, bs)
  | bi + 1, bj, bs =>
    if alo < bi + 1 ∧ blo < bj ∧ a.getD bi default = b.getD (bj - 1) default then
      extBack a b alo blo bi (bj - 1) (bs + 1)
    else (bi + 1, bj, bs)

/-- Second post-loop extension: extend the best block forwards over equal
non-junk elements, returning the final `bestsize`.  The loop runs while
`besti + bestsize < ahi`, so `ahi - (besti + bestsize)` bounds it exactly:
at fuel `0` the condition `bi + bs < ahi` is false and the loop stops. -/
def extFwdAux (a b : List Char) (ahi bhi bi bj : Nat) : Nat → Nat → Nat
  | 0, bs => bs
  | fuel + 1, bs =>
    if bi + bs < ahi ∧ bj + bs < bhi ∧ a.getD (bi + bs) default = b.getD (bj + bs) default then
      extFwdAux a b ahi bhi bi bj fuel (bs + 1)
    else bs

def extFwd (a b : List Char) (ahi bhi bi bj bs : Nat) : Nat :=
  extFwdAux a b ahi bhi bi bj (ahi - (bi + bs)) bs

/-- `find_longest_match(alo, ahi, blo, bhi)` with `isjunk = None`: the
dynamic-programming loop followed by the two non-junk extension loops (the
final two junk-extension loops never fire, the junk set being empty). -/
def findLongestMatch (a b : List Char) (bjf : Char → List Nat)
    (alo ahi blo bhi : Nat) : Nat × Nat × Nat :=
  let m := outerLoop a bjf blo bhi (List.range' alo (ahi - alo)) (fun _ => 0) (alo, blo, 0)
  let e := extBack a b alo blo m.1 m.2.1 m.2.2
  (e.1, e.2.1, extFwd a b ahi bhi e.1 e.2.1 e.2.2)

/-- Total number of matched elements over `get_matching_blocks()`:
the recursion of the queue-based block search.  The sorting and merging of
adjacent blocks performed afterwards by `get_matching_blocks` preserve this
total, which is the only quantity `ratio()` reads.  `fuel` bounds the
recursion depth; the top-level call supplies `len(a) + len(b) + 1`, which
exceeds the depth of any split of the two intervals. -/
def matchTotal (a b : List Char) (bjf : Char → List Nat) :
    Nat → Nat → Nat → Nat → Nat → Nat
  | 0, _, _, _, _ => 0
  | fuel + 1, alo, ahi, blo, bhi =>
    let m := findLongestMatch a b bjf alo ahi blo bhi
    if m.2.2 = 0 then 0
    else
      (if alo < m.1 ∧ blo < m.2.1 then matchTotal a b bjf fuel alo m.1 blo m.2.1 else 0)
        + m.2.2 +
      (if m.1 + m.2.2 < ahi ∧ m.2.1 + m.2.2 < bhi then
        matchTotal a b bjf fuel (m.1 + m.2.2) ahi (m.2.1 + m.2.2) bhi else 0)

/-- `SequenceMatcher(None, a, b).ratio() = 2.0 * M / T` where `M` is the
total matched size and `T = len(a) + len(b)`; `1.0` when `T = 0`. -/
def ratioQ (a b : List Char) : ℚ :=
  let M := matchTotal a b (b2j b) (a.length + b.length + 1) 0 a.length 0 b.length
  if a.length + b.length = 0 then 1 else (2 * M : ℚ) / (a.length + b.length)

/-!
Verification infrastructure for `ratio` on a pair of identical sequences.
`diagrun a pop lo hi j` is the length of the maximal run of consecutive
positions ending at `j`, inside `[lo, hi)`, whose characters all fail the
popularity test: exactly the value the `j2len` chain assigns to the
diagonal entry `(j, j)` when both sequences are `a`.
-/

def diagrun (a : List Char) (pop : Char → Bool) (lo hi : Nat) : Nat → Nat
  | 0 => if lo ≤ 0 ∧ 0 < hi ∧ pop (a.getD 0 default) = false then 1 else 0
  | j + 1 =>
    if lo ≤ j + 1 ∧ j + 1 < hi ∧ pop (a.getD (j + 1) default) = false then
      diagrun a pop lo hi j + 1
    else 0

end Difflib

/-- `ContentExtractor.calculate_similarity` (src/core/content_extractor.py,
lines 114-131): `0.0` when either text is falsy (empty), otherwise
`SequenceMatcher(None, text1, text2).ratio()`. -/
def calculate_similarity (text1 text2 : List Char) : ℚ :=
  if text1 = [] ∨ text2 = [] then 0 else Difflib.ratioQ text1 text2

/-!
Embedding of `RetractionWatch._normalize_doi` and `RetractionWatch.check_doi`
(src/integrations/retraction_watch.py).
-/

namespace RetractionWatch

/-- Python whitespace for `str.strip` and the regex class `\s` on the ASCII
range: space, tab, newline, carriage return, vertical tab, form feed. -/
def isSpacePy (c : Char) : Bool :=
  c = ' ' || c = '\t' || c = '\n' || c = '\r' || c = Char.ofNat 11 || c = Char.ofNat 12

/-- Python `str.lower` character-wise (ASCII case mapping). -/
def lowerStr (s : List Char) : List Char := s.map Char.toLower

/-- Python `str.strip`: drop leading and trailing whitespace. -/
def stripStr (s : List Char) : List Char :=
  ((s.dropWhile isSpacePy).reverse.dropWhile isSpacePy).reverse

/-- Python `str.replace("doi:", "")`: left-to-right non-overlapping removal
of every occurrence of `doi:`. -/
def removeDoiPrefix : List Char → List Char
  | 'd' :: 'o' :: 'i' :: ':' :: rest => removeDoiPrefix rest
  | c :: cs => c :: removeDoiPrefix cs
  | [] => []

/-- Python `str.replace("DOI:", "")`. -/
def removeUpperDoi : List Char → List Char
  | 'D' :: 'O' :: 'I' :: ':' :: rest => removeUpperDoi rest
  | c :: cs => c :: removeUpperDoi cs
  | [] => []

/-- The character class of the DOI-suffix regex: everything except
whitespace and the characters excluded by the pattern
(angle brackets, double quote, braces, pipe, backslash, caret, backtick
(code point 96), square brackets; braces are code points 123 and 125). -/
def isAllowedSuffixChar (c : Char) : Bool :=
  !(isSpacePy c || c = '<' || c = '>' || c = '"' || c = Char.ofNat 123 ||
    c = Char.ofNat 125 || c = '|' || c = '\\' || c = '^' || c = Char.ofNat 96 ||
    c = '[' || c = ']')

/-- Match of the DOI regex anchored at the head of `s`: `10.`, a greedy run
of at least four digits, `/`, then a greedy nonempty run of allowed suffix
characters.  Greedy matching with backtracking degenerates to this form
because a digit can never satisfy the literal `/`. -/
def matchDoiAt (s : List Char) : Option (List Char) :=
  match s with
  | '1' :: '0' :: '.' :: rest =>
    let digits := rest.takeWhile Char.isDigit
    if 4 ≤ digits.length then
      match rest.dropWhile Char.isDigit with
      | '/' :: rest2 =>
        let suffix := rest2.takeWhile isAllowedSuffixChar
        if suffix = [] then none
        else some ('1' :: '0' :: '.' :: (digits ++ '/' :: suffix))
      | _ => none
    else none
  | _ => none

/-- `re.search` of the DOI pattern: the match at the leftmost position where
the pattern matches. -/
def searchDoi : List Char → Option (List Char)
  | [] => none
  | c :: cs =>
    match matchDoiAt (c :: cs) with
    | some m => some m
    | none => searchDoi cs

/-- The canonicalisation pipeline of `_normalize_doi` before the regex
search: `strip`, `lower`, remove `doi:`, remove `DOI:`, `strip`. -/
def preprocessDoi (doi : List Char) : List Char :=
  stripStr (removeUpperDoi (removeDoiPrefix (lowerStr (stripStr doi))))

/-- `RetractionWatch._normalize_doi` (src/integrations/retraction_watch.py,
lines 57-72): `None` for a falsy (empty) input, otherwise the leftmost
DOI-pattern match in the canonicalised string, or `None` when the pattern
is absent. -/
def normalize_doi (doi : List Char) : Option (List Char) :=
  if doi = [] then none
  else searchDoi (preprocessDoi doi)

/-- A row of the `retractions_cache` table. -/
structure RetractionRecord where
  doi : List Char
  paper_title : String
  retraction_date : Option String
  retraction_reason : Option String
  source : String
deriving DecidableEq, Repr

/-- `SELECT * FROM retractions_cache WHERE doi = %s`: exact string equality
against the stored `doi` column. -/
def cacheLookup (cache : List RetractionRecord) (d : List Char) : Option RetractionRecord :=
  cache.find? (fun r => r.doi = d)

/-- `RetractionWatch.check_doi` (src/integrations/retraction_watch.py,
lines 128-159): normalize the DOI, return `None` if it does not normalize,
otherwise look the normalized form up in the cache. -/
def check_doi (cache : List RetractionRecord) (doi : List Char) : Option RetractionRecord :=
  match normalize_doi doi with
  | none => none
  | some nd => cacheLookup cache nd

end RetractionWatch

/-!
Embedding of `urllib.parse.urlparse` (netloc and path components, CPython
3.11) and of `BrokenLinkAgent` (src/agents/broken_link_agent.py) together
with the `HTTPClient` layer it calls (src/core/utils.py).
-/

namespace UrlCheck

/-- Characters allowed in a URL scheme after the leading letter. -/
def isSchemeChar (c : Char) : Bool :=
  c.isAlphanum || c = '+' || c = '-' || c = '.'

/-- `urlsplit` scheme removal: when the text before the first `:` is a
nonempty valid scheme starting with a letter, split off the lowercased
scheme. -/
def splitScheme (u : List Char) : List Char × List Char :=
  match u.findIdx? (· = ':') with
  | none => ([], u)
  | some i =>
    if 0 < i ∧ (u.take i).all isSchemeChar ∧ (u.getD 0 default).isAlpha then
      ((u.take i).map Char.toLower, u.drop (i + 1))
    else ([], u)

/-- `urllib.parse.uses_params`: the schemes for which `urlparse` splits
`;parameters` off the path. -/
def usesParams : List (List Char) :=
  ["", "ftp", "hdl", "prospero", "http", "imap", "https", "shttp", "rtsp",
    "rtspu", "sip", "sips", "mms", "sftp", "tel"].map String.toList

/-- `urlparse` parameter splitting (`_splitparams`): when the last
`/`-segment of the path holds a `;`, the path stops at that `;`. -/
def splitParams (u : List Char) : List Char :=
  if u.contains ';' then
    if u.contains '/' then
      let lastSeg := (u.reverse.takeWhile (· ≠ '/')).reverse
      if lastSeg.contains ';' then
        u.take (u.length - lastSeg.length) ++ lastSeg.takeWhile (· ≠ ';')
      else u
    else u.takeWhile (· ≠ ';')
  else u

/-- Path component: drop the fragment (from the first `#`), then the query
(from the first `?`), then split parameters when the scheme uses them. -/
def pathOf (useP : Bool) (u : List Char) : List Char :=
  let p := (u.takeWhile (· ≠ '#')).takeWhile (· ≠ '?')
  if useP then splitParams p else p

/-- `urlsplit` input sanitisation: strip leading C0-control-or-space
characters, then remove every tab, carriage return and newline. -/
def cleanUrl (u : List Char) : List Char :=
  (u.dropWhile (fun c => c.toNat ≤ 32)).filter
    (fun c => !(c = '\t' || c = '\r' || c = '\n'))

/-- `urlparse(u)` reduced to its `(netloc, path)` components.  `none`
models the `ValueError` raised on a netloc with unbalanced square brackets
(the content validation of a bracketed host is not modelled further; it
only concerns IPv6-literal hosts). -/
def parseUrl (u : List Char) : Option (List Char × List Char) :=
  let s := splitScheme (cleanUrl u)
  let useP := decide (s.1 ∈ usesParams)
  if s.2.take 2 = ['/', '/'] then
    let after := s.2.drop 2
    let netloc := after.takeWhile (fun c => !(c = '/' || c = '?' || c = '#'))
    let rest := after.dropWhile (fun c => !(c = '/' || c = '?' || c = '#'))
    if (netloc.contains '[' && !netloc.contains ']') ||
       (netloc.contains ']' && !netloc.contains '[') then none
    else some (netloc, pathOf useP rest)
  else some ([], pathOf useP s.2)

/-- `HTTP_ERROR_CODES` (src/core/constants.py, line 52). -/
def HTTP_ERROR_CODES : List Nat := [404, 410, 500, 503]

/-- A terminal HTTP response: status code and final URL after redirects. -/
structure HttpResponse where
  status_code : Nat
  url : List Char
deriving DecidableEq, Repr

/-- Transport-level outcome of one `requests` call: either a raised
transport error (timeout, connection failure) or a terminal response. -/
inductive HttpOutcome where
  | failure
  | response (r : HttpResponse)
deriving DecidableEq, Repr

/-- `HTTPClient.head` / `HTTPClient.get` (src/core/utils.py, lines 72-107
and 143-177): every exception path returns `None`; in particular
`response.raise_for_status()` raises for any status in `[400, 600)`, so a
response with such a status is swallowed and `None` is returned. -/
def clientRequest (o : HttpOutcome) : Option HttpResponse :=
  match o with
  | .failure => none
  | .response r =>
    if 400 ≤ r.status_code ∧ r.status_code < 600 then none else some r

/-- The result dictionary of `BrokenLinkAgent.check_url`. -/
structure CheckResult where
  accessible : Bool
  status_code : Option Nat
  error : Option String
  redirects_to_homepage : Bool
deriving DecidableEq, Repr

/-- The homepage path set of `_is_homepage_redirect` (line 106). -/
def homepagePaths : List (List Char) :=
  [[], ['/'], "/index.html".toList, "/index.php".toList, "/home".toList]

/-- `BrokenLinkAgent._is_homepage_redirect` (src/agents/broken_link_agent.py,
lines 86-111): parse both URLs; on the same netloc, test the final path
against the homepage path set; any parse exception yields `False`. -/
def is_homepage_redirect (original_url final_url : List Char) : Bool :=
  match parseUrl original_url, parseUrl final_url with
  | some po, some pf =>
    if po.1 = pf.1 then decide (pf.2 ∈ homepagePaths) else false
  | _, _ => false

/-- Classification of one obtained response inside `check_url`
(lines 50-66 and 71-80 share this logic verbatim). -/
def classifyResponse (url : List Char) (r : HttpResponse) : CheckResult :=
  if r.status_code ∈ HTTP_ERROR_CODES then
    { accessible := false, status_code := some r.status_code,
      error := some ("HTTP " ++ toString r.status_code), redirects_to_homepage := false }
  else if is_homepage_redirect url r.url then
    { accessible := false, status_code := some r.status_code,
      error := some "Redirects to homepage", redirects_to_homepage := true }
  else
    { accessible := true, status_code := some r.status_code,
      error := none, redirects_to_homepage := false }

/-- `BrokenLinkAgent.check_url` (src/agents/broken_link_agent.py, lines
30-84): try HEAD first, fall back to GET, and report `Connection failed`
when both fail.  `headO` and `getO` are the transport outcomes of the two
underlying requests. -/
def check_url (url : List Char) (headO getO : HttpOutcome) : CheckResult :=
  match clientRequest headO with
  | some r => classifyResponse url r
  | none =>
    match clientRequest getO with
    | some r => classifyResponse url r
    | none =>
      { accessible := false, status_code := none,
        error := some "Connection failed", redirects_to_homepage := false }

end UrlCheck

/-- `ProblemType` (src/core/constants.py, lines 5-10). -/
inductive ProblemType where
  | broken_link
  | retraction
  | source_change
  | evidence_weak
deriving DecidableEq, Repr

/-- `Severity` (src/core/constants.py, lines 13-18). -/
inductive Severity where
  | low
  | medium
  | high
  | critical
deriving DecidableEq, Repr

/-- `DEFAULT_SIMILARITY_THRESHOLD` (src/core/constants.py, line 39). -/
def DEFAULT_SIMILARITY_THRESHOLD : ℚ := 80 / 100

/-!
Embedding of `LLMTriage` (src/llm/llm_triage.py).  The OpenAI chat
completion is modelled as an oracle `String → Except String String`: a
prompt goes in, either a completion text comes back or an exception is
raised.  The full literal prompt text is abbreviated to the structured
parts the calls interpolate; no claim depends on the prompt wording.
-/

namespace Triage

/-- State of an `LLMTriage` instance: `enabled` (requires an API key) and
an optional constructed client. -/
structure LLMTriage where
  enabled : Bool
  client : Option (String → Except String String)

/-- Context block built by both calls from the problem and citation data. -/
def promptContext (problem_type details ctx : String) : String :=
  "Problem Type: " ++ problem_type ++ "\nDetails: " ++ details ++ "\n" ++ ctx

/-- `LLMTriage.is_real_problem` (src/llm/llm_triage.py, lines 30-92):
`True` when disabled or without a client; on a completed call, `True` iff
the stripped, lowered answer starts with `yes`; `True` on any raised
error. -/
def is_real_problem (t : LLMTriage) (problem_type details ctx : String) : Bool :=
  if !t.enabled then true
  else
    match t.client with
    | none => true
    | some f =>
      match f (promptContext problem_type details ctx) with
      | .error _ => true
      | .ok ans => (ans.trim.toLower).startsWith "yes"

/-- `LLMTriage.explain_finding` (src/llm/llm_triage.py, lines 94-147):
the original `details` when disabled or without a client; the stripped
completion on success; the original `details` on any raised error. -/
def explain_finding (t : LLMTriage) (problem_type details ctx : String) : String :=
  if !t.enabled then details
  else
    match t.client with
    | none => details
    | some f =>
      match f (promptContext problem_type details ctx) with
      | .error _ => details
      | .ok ans => ans.trim

end Triage

/-- A citation row (src/core/database.py, table `citations`), restricted to
the columns the detectors read.  Timestamps are integers. -/
structure Citation where
  id : Nat
  wikipedia_article : String
  source_url : Option (List Char)
  source_doi : Option (List Char)
  source_title : Option String
  citation_number : Option Nat
  snapshot_url : Option (List Char)
  last_checked : Option Int
  created_at : Int
deriving DecidableEq, Repr

/-- A row of the `findings` table as built by the agents. -/
structure Finding where
  citation_id : Nat
  wikipedia_article : String
  problem_type : ProblemType
  details : String
  severity : Severity
deriving DecidableEq, Repr

namespace BrokenLink

open UrlCheck Triage

/-- The `details` string built by `BrokenLinkAgent.check_citation`
(lines 132-136); Python appends the error part for a truthy (non-empty)
error and the status part for a truthy (non-zero) status code. -/
def bl_details (url : List Char) (res : CheckResult) : String :=
  let base := "URL " ++ String.mk url ++ " is not accessible"
  let base2 := match res.error with
    | none => base
    | some e => if e = "" then base else base ++ ": " ++ e
  match res.status_code with
  | none => base2
  | some sc => if sc = 0 then base2 else base2 ++ " (HTTP " ++ toString sc ++ ")"

/-- The citation-context string passed to the triage calls. -/
def bl_context (c : Citation) (url : List Char) : String :=
  "Source: " ++ (c.source_title.getD "") ++ "\nArticle: " ++ c.wikipedia_article ++
    "\nURL: " ++ String.mk url

/-- `BrokenLinkAgent.check_citation` (src/agents/broken_link_agent.py,
lines 113-175): no URL means no check; an accessible URL means no finding;
otherwise build the finding (severity HIGH exactly for status 404 or 410,
else MEDIUM), then let the triage oracle veto it or rewrite its details. -/
def check_citation (c : Citation) (headO getO : HttpOutcome)
    (triage : Option LLMTriage) : Option Finding :=
  match c.source_url with
  | none => none
  | some url =>
    let res := check_url url headO getO
    if res.accessible then none
    else
      let details := bl_details url res
      let finding : Finding :=
        { citation_id := c.id, wikipedia_article := c.wikipedia_article,
          problem_type := ProblemType.broken_link, details := details,
          severity := if res.status_code = some 404 ∨ res.status_code = some 410
            then Severity.high else Severity.medium }
      match triage with
      | none => some finding
      | some t =>
        if is_real_problem t "broken_link" details (bl_context c url) then
          some { finding with
            details := explain_finding t "broken_link" details (bl_context c url) }
        else none

end BrokenLink

/-!
Embedding of `RetractionAgent.check_citation` (src/agents/retraction_agent.py,
lines 34-112): the fallback chain over the cache, the PubMed API and the
CrossRef API.  Each source's reply is a parameter; the returned trace lists
the sources actually queried, in query order, mirroring the control flow.
-/

namespace RetractionChain

/-- The three sources of the fallback chain, in chain order. -/
inductive Source where
  | cache
  | pubmed
  | crossref
deriving DecidableEq, Repr

/-- A resolved retraction with its provenance. -/
structure Resolved where
  source : Source
deriving DecidableEq, Repr

/-- The fallback chain of `RetractionAgent.check_citation`: the cache is
always queried first; when it misses and `use_apis` is set, PubMed is
queried; when PubMed also misses, CrossRef is queried.  Returns the
resolution outcome and the list of sources queried, in order. -/
def resolveChain (useApis : Bool) (cacheHit pubmedHit crossrefHit : Bool) :
    Option Resolved × List Source :=
  if cacheHit then (some ⟨Source.cache⟩, [Source.cache])
  else if useApis then
    if pubmedHit then (some ⟨Source.pubmed⟩, [Source.cache, Source.pubmed])
    else if crossrefHit then
      (some ⟨Source.crossref⟩, [Source.cache, Source.pubmed, Source.crossref])
    else (none, [Source.cache, Source.pubmed, Source.crossref])
  else (none, [Source.cache])

end RetractionChain

/-- The drift decision of `SourceChangeAgent.check_citation`
(src/agents/source_change_agent.py, lines 99-114): a signal exactly when
`similarity < threshold`; its severity is MEDIUM when `similarity > 0.50`,
else HIGH. -/
def source_change_decision (similarity threshold : ℚ) : Option Severity :=
  if similarity < threshold then
    some (if similarity > 1 / 2 then Severity.medium else Severity.high)
  else none

/-!
Embedding of the citation-selection queries (src/core/database.py and the
inline query of `SourceChangeAgent.run`).  A database table is a list of
rows; `ORDER BY` is modelled by a sort with the corresponding total
preorder, `LIMIT` by `take`.
-/

namespace Selection

/-- `last_checked` comparison under `ORDER BY last_checked NULLS FIRST`
(ascending, nulls first). -/
def lcLe (x y : Option Int) : Prop :=
  match x, y with
  | none, _ => True
  | some _, none => False
  | some t, some u => t ≤ u

instance : DecidableRel lcLe := fun x y => by
  unfold lcLe
  match x, y with
  | none, _ => exact inferInstanceAs (Decidable True)
  | some _, none => exact inferInstanceAs (Decidable False)
  | some t, some u => exact inferInstanceAs (Decidable (t ≤ u))

/-- Strict version of `lcLe`. -/
def lcLt (x y : Option Int) : Prop :=
  match x, y with
  | none, none => False
  | none, some _ => True
  | some _, none => False
  | some t, some u => t < u

instance : DecidableRel lcLt := fun x y => by
  unfold lcLt
  match x, y with
  | none, none => exact inferInstanceAs (Decidable False)
  | none, some _ => exact inferInstanceAs (Decidable True)
  | some _, none => exact inferInstanceAs (Decidable False)
  | some t, some u => exact inferInstanceAs (Decidable (t < u))

/-- Row order of `get_citations_needing_check`:
`ORDER BY last_checked NULLS FIRST`. -/
def ncLe (c1 c2 : Citation) : Prop := lcLe c1.last_checked c2.last_checked

instance : DecidableRel ncLe := fun c1 c2 =>
  inferInstanceAs (Decidable (lcLe c1.last_checked c2.last_checked))

/-- Row order of the `SourceChangeAgent.run` query:
`ORDER BY last_checked NULLS FIRST, created_at DESC`. -/
def scLe (c1 c2 : Citation) : Prop :=
  lcLt c1.last_checked c2.last_checked ∨
    (c1.last_checked = c2.last_checked ∧ c2.created_at ≤ c1.created_at)

instance : DecidableRel scLe := fun c1 c2 =>
  inferInstanceAs (Decidable (_ ∨ _))

/-- The `WHERE` clause of `get_citations_needing_check`: never checked or
checked before the staleness window, and a source URL is present. -/
def needsCheck (now days : Int) (c : Citation) : Bool :=
  (match c.last_checked with
   | none => true
   | some t => decide (t < now - days)) && c.source_url.isSome

/-- `get_citations_needing_check` (src/core/database.py, lines 135-153). -/
def get_citations_needing_check (db : List Citation) (now days : Int)
    (limit : Nat) : List Citation :=
  ((db.filter (needsCheck now days)).insertionSort ncLe).take limit

/-- `get_citations_with_dois` (src/core/database.py, lines 156-162): the
query has no `ORDER BY` and no `LIMIT`. -/
def get_citations_with_dois (db : List Citation) : List Citation :=
  db.filter (fun c => c.source_doi.isSome)

/-- The inline selection query of `SourceChangeAgent.run`
(src/agents/source_change_agent.py, lines 159-166). -/
def source_change_selection (db : List Citation) (limit : Nat) : List Citation :=
  ((db.filter (fun c => c.snapshot_url.isSome && c.source_url.isSome)).insertionSort
    scLe).take limit

end Selection

/-!
Embedding of the per-citation orchestrator loops.  A detector is a function
`Citation → Except Unit (Option Finding)`: an `error` is an exception
raised while checking the citation, an `ok` is a clean completion with an
optional finding.  Each run returns the findings saved and the ids stamped with a
fresh `last_checked`, in processing order.
-/

namespace Runs

/-- A detector outcome is clean when no exception was raised. -/
def isClean (r : Except Unit (Option Finding)) : Bool :=
  match r with
  | .ok _ => true
  | .error _ => false

/-- `BrokenLinkAgent.run` (src/agents/broken_link_agent.py, lines 177-215):
per citation, an exception is logged and skipped (no stamp); a clean result
saves the finding when present and always stamps `last_checked`.
`SourceChangeAgent.run` (lines 149-195) has the same loop body. -/
def broken_link_run (det : Citation → Except Unit (Option Finding)) :
    List Citation → List Finding × List Nat
  | [] => ([], [])
  | c :: cs =>
    match det c with
    | .error _ => broken_link_run det cs
    | .ok fo =>
      let r := broken_link_run det cs
      match fo with
      | some f => (f :: r.1, c.id :: r.2)
      | none => (r.1, c.id :: r.2)

/-- `RetractionAgent.run` (src/agents/retraction_agent.py, lines 114-152):
per citation, an exception is logged and skipped; a clean result saves the
finding when present.  The loop never calls
`update_citation_last_checked`, so no citation is ever stamped. -/
def retraction_run (det : Citation → Except Unit (Option Finding)) :
    List Citation → List Finding × List Nat
  | [] => ([], [])
  | c :: cs =>
    match det c with
    | .error _ => retraction_run det cs
    | .ok fo =>
      let r := retraction_run det cs
      match fo with
      | some f => (f :: r.1, r.2)
      | none => (r.1, r.2)

end Runs

namespace Difflib

lemma diagrun_eq_zero (a : List Char) (pop : Char → Bool) (lo hi : Nat) (j : Nat)
    (h : ¬(lo ≤ j ∧ j < hi ∧ pop (a.getD j default) = false)) :
    diagrun a pop lo hi j = 0 := by
  cases j <;> simp only [diagrun, if_neg h]

lemma diagrun_eq_succ (a : List Char) (pop : Char → Bool) (lo hi : Nat) (j : Nat)
    (h1 : lo ≤ j) (h2 : j < hi) (h3 : pop (a.getD j default) = false) :
    diagrun a pop lo hi j = prevAt (diagrun a pop lo hi) j + 1 := by
  cases j <;> · simp only [diagrun, prevAt]; rw [if_pos ⟨h1, h2, h3⟩]

lemma diagrun_le (a : List Char) (pop : Char → Bool) (lo hi : Nat) :
    ∀ j, diagrun a pop lo hi j ≤ j + 1 - lo := by
  intro j
  induction j with
  | zero =>
    by_cases h : lo ≤ 0 ∧ 0 < hi ∧ pop (a.getD 0 default) = false
    · simp only [diagrun, if_pos h]; omega
    · simp only [diagrun, if_neg h]; omega
  | succ j ih =>
    by_cases h : lo ≤ j + 1 ∧ j + 1 < hi ∧ pop (a.getD (j + 1) default) = false
    · simp only [diagrun, if_pos h]; omega
    · simp only [diagrun, if_neg h]; omega

lemma diagrun_zero_of_lt (a : List Char) (pop : Char → Bool) (lo hi : Nat) (j : Nat)
    (h : j < lo) : diagrun a pop lo hi j = 0 :=
  diagrun_eq_zero a pop lo hi j (by omega)

lemma mem_positions (c : Char) (b : List Char) (j : Nat) :
    j ∈ positions c b ↔ j < b.length ∧ b.getD j default = c := by
  simp [positions, List.mem_filter, List.mem_range]

lemma positions_pairwise (c : Char) (b : List Char) :
    (positions c b).Pairwise (· < ·) :=
  (List.pairwise_lt_range b.length).filter _

lemma mem_b2j (b : List Char) (c : Char) (j : Nat) :
    j ∈ b2j b c ↔ isPopular b c = false ∧ j < b.length ∧ b.getD j default = c := by
  unfold b2j
  by_cases h : isPopular b c
  · simp [h]
  · simp [h, mem_positions, eq_false_of_ne_true h]

lemma b2j_pairwise (b : List Char) (c : Char) : (b2j b c).Pairwise (· < ·) := by
  unfold b2j
  by_cases h : isPopular b c
  · simp [h]
  · simpa [h] using positions_pairwise c b

section SelfSim

variable {a : List Char} {pop : Char → Bool} {bjf : Char → List Nat} {lo hi : Nat}

/-- Phase 1 of one row of the central loop when both sequences are `a`:
processing the positions of `a.getD i default` that lie strictly below the
diagonal updates only the new dict, never `best`. -/
lemma inner_phase1
    (prev : Nat → Nat) (i : Nat) (c : Char)
    (Hbjf : ∀ j, j ∈ bjf c ↔ pop c = false ∧ j < a.length ∧ a.getD j default = c)
    (Hp1 : ∀ j, prev j ≤ diagrun a pop lo hi j)
    (Hp2 : ∀ j, prev j ≤ prevAt prev i)
    (hloi : lo ≤ i) (hihi : i < hi) :
    ∀ (P : List Nat), (∀ j ∈ P, j < i ∧ j ∈ bjf c) →
    ∀ (rest : List Nat) (cur : Nat → Nat),
      (∀ j, cur j ≤ diagrun a pop lo hi j) →
      (∀ j, cur j ≤ prevAt prev i + 1) →
      ∀ (best : Nat × Nat × Nat),
        (∀ j, j < i → diagrun a pop lo hi j ≤ best.2.2) →
        ∃ cur', innerLoop prev i lo hi (P ++ rest) cur best
                  = innerLoop prev i lo hi rest cur' best
          ∧ (∀ j, cur' j ≤ diagrun a pop lo hi j)
          ∧ (∀ j, cur' j ≤ prevAt prev i + 1) := by
  intro P
  induction P with
  | nil => intro _ rest cur Hc1 Hc2 best _; exact ⟨cur, rfl, Hc1, Hc2⟩
  | cons j P ih =>
    intro hP rest cur Hc1 Hc2 best hdom
    obtain ⟨hji, hjmem⟩ := hP j (List.mem_cons_self j P)
    have hPtail : ∀ x ∈ P, x < i ∧ x ∈ bjf c :=
      fun x hx => hP x (List.mem_cons_of_mem _ hx)
    obtain ⟨hpopc, hjlen, hjc⟩ := (Hbjf j).mp hjmem
    by_cases hjlo : j < lo
    · simp only [List.cons_append, innerLoop, if_pos hjlo]
      exact ih hPtail rest cur Hc1 Hc2 best hdom
    · have hjhi : ¬ hi ≤ j := by omega
      have hD : diagrun a pop lo hi j = prevAt (diagrun a pop lo hi) j + 1 :=
        diagrun_eq_succ a pop lo hi j (by omega) (by omega) (by rw [hjc]; exact hpopc)
      have hk1 : prevAt prev j + 1 ≤ diagrun a pop lo hi j := by
        rw [hD]
        cases j with
        | zero => simp [prevAt]
        | succ j' => simpa [prevAt] using Hp1 j'
      have hkcap : prevAt prev j + 1 ≤ prevAt prev i + 1 := by
        cases j with
        | zero => simp [prevAt]
        | succ j' => simpa [prevAt] using Hp2 j'
      have hks : prevAt prev j + 1 ≤ best.2.2 := le_trans hk1 (hdom j hji)
      simp only [List.cons_append, innerLoop, if_neg hjlo, if_neg hjhi]
      rw [if_neg (by omega : ¬ best.2.2 < prevAt prev j + 1)]
      refine ih hPtail rest (fun x => if x = j then prevAt prev j + 1 else cur x)
        (fun x => ?_) (fun x => ?_) best hdom
      · by_cases hx : x = j
        · subst hx; simp [hk1]
        · simpa [hx] using Hc1 x
      · by_cases hx : x = j
        · subst hx; simp [hkcap]
        · simpa [hx] using Hc2 x

/-- Phase 2 of one row: positions strictly above the diagonal, processed
after the diagonal entry, never move `best` and keep the diagonal entry of
the new dict dominant. -/
lemma inner_phase2
    (prev : Nat → Nat) (i : Nat) (c : Char)
    (Hbjf : ∀ j, j ∈ bjf c ↔ pop c = false ∧ j < a.length ∧ a.getD j default = c)
    (Hp1 : ∀ j, prev j ≤ diagrun a pop lo hi j)
    (Hp2 : ∀ j, prev j ≤ prevAt prev i)
    (hloi : lo ≤ i) :
    ∀ (P : List Nat), (∀ j ∈ P, i < j ∧ j ∈ bjf c) →
    ∀ (cur : Nat → Nat) (best : Nat × Nat × Nat),
      (∀ j, cur j ≤ diagrun a pop lo hi j) →
      (∀ j, cur j ≤ cur i) →
      cur i = prevAt prev i + 1 →
      cur i = diagrun a pop lo hi i →
      (∀ j, j < i + 1 → diagrun a pop lo hi j ≤ best.2.2) →
      (∀ j, (innerLoop prev i lo hi P cur best).1 j ≤ diagrun a pop lo hi j) ∧
      (∀ j, (innerLoop prev i lo hi P cur best).1 j
          ≤ (innerLoop prev i lo hi P cur best).1 i) ∧
      (innerLoop prev i lo hi P cur best).1 i = diagrun a pop lo hi i ∧
      (innerLoop prev i lo hi P cur best).2 = best := by
  intro P
  induction P with
  | nil =>
    intro _ cur best Hc1 Hcap _ Hci _
    exact ⟨Hc1, Hcap, Hci, rfl⟩
  | cons j P ih =>
    intro hP cur best Hc1 Hcap Hck Hci hdom
    obtain ⟨hij, hjmem⟩ := hP j (List.mem_cons_self j P)
    have hPtail : ∀ x ∈ P, i < x ∧ x ∈ bjf c :=
      fun x hx => hP x (List.mem_cons_of_mem _ hx)
    obtain ⟨hpopc, hjlen, hjc⟩ := (Hbjf j).mp hjmem
    have hjlo : ¬ j < lo := by omega
    by_cases hjhi : hi ≤ j
    · simp only [innerLoop, if_neg hjlo, if_pos hjhi]
      exact ⟨Hc1, Hcap, Hci, trivial⟩
    · have hD : diagrun a pop lo hi j = prevAt (diagrun a pop lo hi) j + 1 :=
        diagrun_eq_succ a pop lo hi j (by omega) (by omega) (by rw [hjc]; exact hpopc)
      have hk1 : prevAt prev j + 1 ≤ diagrun a pop lo hi j := by
        rw [hD]
        cases j with
        | zero => simp [prevAt]
        | succ j' => simpa [prevAt] using Hp1 j'
      have hkcap : prevAt prev j + 1 ≤ cur i := by
        rw [Hck]
        cases j with
        | zero => simp [prevAt]
        | succ j' => simpa [prevAt] using Hp2 j'
      have hks : prevAt prev j + 1 ≤ best.2.2 := by
        have := hdom i (Nat.lt_succ_self i)
        omega
      simp only [innerLoop, if_neg hjlo, if_neg hjhi]
      rw [if_neg (by omega : ¬ best.2.2 < prevAt prev j + 1)]
      have hji : ¬ (i = j) := by omega
      refine ih hPtail (fun x => if x = j then prevAt prev j + 1 else cur x) best
        (fun x => ?_) (fun x => ?_) ?_ ?_ hdom
      · by_cases hx : x = j
        · subst hx; simp [hk1]
        · simpa [hx] using Hc1 x
      · by_cases hx : x = j
        · subst hx; dsimp only; rw [if_pos rfl, if_neg hji]; exact hkcap
        · simp only [if_neg hx, if_neg hji]
          exact Hcap x
      · simp only [if_neg hji]; exact Hck
      · simp only [if_neg hji]; exact Hci

/-- One full row of the central loop on identical sequences: the dict and
`best` invariants are carried from row `i` to row `i + 1`, and `best` stays
on the diagonal. -/
lemma inner_row
    (Hgood : ∀ c j, j ∈ bjf c ↔ pop c = false ∧ j < a.length ∧ a.getD j default = c)
    (Hpair : ∀ c, (bjf c).Pairwise (· < ·))
    (prev : Nat → Nat) (i : Nat)
    (Hp1 : ∀ j, prev j ≤ diagrun a pop lo hi j)
    (Hp2 : ∀ j, prev j ≤ prevAt prev i)
    (Hp3 : prevAt prev i = prevAt (diagrun a pop lo hi) i)
    (hhi : hi ≤ a.length) (hloi : lo ≤ i) (hihi : i < hi)
    (best : Nat × Nat × Nat)
    (hbd : best.1 = best.2.1) (hblo : lo ≤ best.1) (hbs : best.1 + best.2.2 ≤ i)
    (hdom : ∀ j, j < i → diagrun a pop lo hi j ≤ best.2.2) :
    (∀ j, (innerLoop prev i lo hi (bjf (a.getD i default)) (fun _ => 0) best).1 j
        ≤ diagrun a pop lo hi j) ∧
    (∀ j, (innerLoop prev i lo hi (bjf (a.getD i default)) (fun _ => 0) best).1 j
        ≤ prevAt (innerLoop prev i lo hi (bjf (a.getD i default)) (fun _ => 0) best).1 (i + 1)) ∧
    prevAt (innerLoop prev i lo hi (bjf (a.getD i default)) (fun _ => 0) best).1 (i + 1)
        = prevAt (diagrun a pop lo hi) (i + 1) ∧
    (innerLoop prev i lo hi (bjf (a.getD i default)) (fun _ => 0) best).2.1
        = (innerLoop prev i lo hi (bjf (a.getD i default)) (fun _ => 0) best).2.2.1 ∧
    lo ≤ (innerLoop prev i lo hi (bjf (a.getD i default)) (fun _ => 0) best).2.1 ∧
    (innerLoop prev i lo hi (bjf (a.getD i default)) (fun _ => 0) best).2.1
        + (innerLoop prev i lo hi (bjf (a.getD i default)) (fun _ => 0) best).2.2.2 ≤ i + 1 ∧
    (∀ j, j < i + 1 →
      diagrun a pop lo hi j
        ≤ (innerLoop prev i lo hi (bjf (a.getD i default)) (fun _ => 0) best).2.2.2) := by
  obtain ⟨c, hc⟩ : ∃ c, a.getD i default = c := ⟨_, rfl⟩
  rw [hc]
  by_cases hpc : pop c = true
  · -- popular character: its b2j list is empty, the row is a no-op
    have hnil : bjf c = [] := by
      apply List.eq_nil_iff_forall_not_mem.mpr
      intro j hj
      have := ((Hgood c j).mp hj).1
      rw [hpc] at this
      exact Bool.noConfusion this
    have hdi : diagrun a pop lo hi i = 0 :=
      diagrun_eq_zero a pop lo hi i (by rw [hc, hpc]; simp)
    rw [hnil]
    simp only [innerLoop, prevAt]
    refine ⟨fun j => Nat.zero_le _, fun j => Nat.le_refl 0, hdi.symm, hbd, hblo, by omega,
      fun j hj => ?_⟩
    rcases Nat.lt_or_ge j i with h | h
    · exact hdom j h
    · have : j = i := by omega
      rw [this, hdi]; exact Nat.zero_le _
  · have hpc' : pop c = false := by
      cases hpop : pop c
      · rfl
      · exact absurd hpop hpc
    have hmem : i ∈ bjf c := (Hgood c i).mpr ⟨hpc', by omega, hc⟩
    obtain ⟨P₁, P₂, hsplit⟩ := List.append_of_mem hmem
    have hpw : (P₁ ++ i :: P₂).Pairwise (· < ·) := hsplit ▸ Hpair c
    obtain ⟨-, hpw2, hcross⟩ := List.pairwise_append.mp hpw
    have hP₁ : ∀ x ∈ P₁, x < i ∧ x ∈ bjf c := by
      intro x hx
      exact ⟨hcross x hx i (List.mem_cons_self i P₂),
        hsplit ▸ List.mem_append_left _ hx⟩
    have hP₂ : ∀ x ∈ P₂, i < x ∧ x ∈ bjf c := by
      intro x hx
      exact ⟨(List.pairwise_cons.mp hpw2).1 x hx,
        hsplit ▸ List.mem_append_right _ (List.mem_cons_of_mem _ hx)⟩
    -- phase 1: everything strictly before the diagonal
    obtain ⟨cur', heq, Hc1', Hc2'⟩ :=
      inner_phase1 prev i c (Hgood c) Hp1 Hp2 hloi hihi P₁ hP₁ (i :: P₂)
        (fun _ => 0) (fun j => Nat.zero_le _) (fun j => Nat.zero_le _) best hdom
    -- the diagonal entry
    have hilo : ¬ i < lo := by omega
    have hihi' : ¬ hi ≤ i := by omega
    have hki : prevAt prev i + 1 = diagrun a pop lo hi i := by
      rw [Hp3, ← diagrun_eq_succ a pop lo hi i hloi hihi (by rw [hc]; exact hpc')]
    have hdle : diagrun a pop lo hi i ≤ i + 1 - lo := diagrun_le a pop lo hi i
    rw [hsplit, heq]
    simp only [innerLoop, if_neg hilo, if_neg hihi']
    set best' := if best.2.2 < prevAt prev i + 1
      then (i + 1 - (prevAt prev i + 1), i + 1 - (prevAt prev i + 1), prevAt prev i + 1)
      else best with hbest'
    have hbd' : best'.1 = best'.2.1 := by
      rw [hbest']; split
      · rfl
      · exact hbd
    have hblo' : lo ≤ best'.1 := by
      rw [hbest']; split
      · dsimp only; omega
      · exact hblo
    have hbs' : best'.1 + best'.2.2 ≤ i + 1 := by
      rw [hbest']; split
      · dsimp only; omega
      · omega
    have hdom' : ∀ j, j < i + 1 → diagrun a pop lo hi j ≤ best'.2.2 := by
      intro j hj
      rcases Nat.lt_or_ge j i with h | h
      · have := hdom j h
        rw [hbest']; split
        · dsimp only; omega
        · omega
      · have hji : j = i := by omega
        subst hji
        rw [hbest']; split
        · dsimp only; omega
        · omega
    -- phase 2: the diagonal entry has been written, everything after it
    have hmain :=
      inner_phase2 prev i c (Hgood c) Hp1 Hp2 hloi P₂ hP₂
        (fun x => if x = i then prevAt prev i + 1 else cur' x) best'
        (fun x => by
          by_cases hx : x = i
          · subst hx; dsimp only; rw [if_pos rfl]; omega
          · dsimp only; rw [if_neg hx]; exact Hc1' x)
        (fun x => by
          by_cases hx : x = i
          · subst hx; exact Nat.le_refl _
          · dsimp only; rw [if_neg hx, if_pos rfl]; exact Hc2' x)
        (by dsimp only; rw [if_pos rfl])
        (by dsimp only; rw [if_pos rfl]; exact hki)
        hdom'
    obtain ⟨Hr1, Hrcap, Hri, Hrb⟩ := hmain
    refine ⟨Hr1, fun j => ?_, ?_, ?_, ?_, ?_, ?_⟩
    · simpa only [prevAt] using Hrcap j
    · simp only [prevAt]
      exact Hri
    · rw [Hrb]; exact hbd'
    · rw [Hrb]; exact hblo'
    · rw [Hrb]; exact hbs'
    · intro j hj
      rw [Hrb]; exact hdom' j hj

/-- The whole central loop on identical sequences: `best` ends on the
diagonal, inside the range, and dominates every diagonal run. -/
lemma outer_inv
    (Hgood : ∀ c j, j ∈ bjf c ↔ pop c = false ∧ j < a.length ∧ a.getD j default = c)
    (Hpair : ∀ c, (bjf c).Pairwise (· < ·))
    (hhi : hi ≤ a.length) :
    ∀ (n i : Nat), lo ≤ i → i + n = hi →
    ∀ (prev : Nat → Nat) (best : Nat × Nat × Nat),
      (∀ j, prev j ≤ diagrun a pop lo hi j) →
      (∀ j, prev j ≤ prevAt prev i) →
      prevAt prev i = prevAt (diagrun a pop lo hi) i →
      best.1 = best.2.1 → lo ≤ best.1 → best.1 + best.2.2 ≤ i →
      (∀ j, j < i → diagrun a pop lo hi j ≤ best.2.2) →
      (outerLoop a bjf lo hi (List.range' i n) prev best).1
        = (outerLoop a bjf lo hi (List.range' i n) prev best).2.1 ∧
      lo ≤ (outerLoop a bjf lo hi (List.range' i n) prev best).1 ∧
      (outerLoop a bjf lo hi (List.range' i n) prev best).1
        + (outerLoop a bjf lo hi (List.range' i n) prev best).2.2 ≤ hi ∧
      (∀ j, j < hi →
        diagrun a pop lo hi j ≤ (outerLoop a bjf lo hi (List.range' i n) prev best).2.2) := by
  intro n
  induction n with
  | zero =>
    intro i hloi hn prev best _ _ _ hbd hblo hbs hdom
    simp only [List.range', outerLoop]
    exact ⟨hbd, hblo, by omega, fun j hj => hdom j (by omega)⟩
  | succ n ih =>
    intro i hloi hn prev best Hp1 Hp2 Hp3 hbd hblo hbs hdom
    have hihi : i < hi := by omega
    have hrow := inner_row Hgood Hpair prev i Hp1 Hp2 Hp3 hhi hloi hihi best hbd hblo hbs hdom
    obtain ⟨R1, R2, R3, R4, R5, R6, R7⟩ := hrow
    have hstep : List.range' i (n + 1) = i :: List.range' (i + 1) n := rfl
    rw [hstep]
    simp only [outerLoop]
    exact ih (i + 1) (by omega) (by omega) _ _ R1 R2 R3 R4 R5 R6 R7

lemma extBack_diag (a : List Char) (lo : Nat) :
    ∀ d s, lo ≤ d → extBack a a lo lo d d s = (lo, lo, s + (d - lo)) := by
  intro d
  induction d with
  | zero =>
    intro s h
    have hl : lo = 0 := by omega
    subst hl
    simp [extBack]
  | succ d ih =>
    intro s h
    by_cases hlt : lo < d + 1
    · rw [extBack, if_pos ⟨hlt, hlt, by simp⟩]
      have hd : d + 1 - 1 = d := by omega
      rw [hd, ih (s + 1) (by omega)]
      have : s + 1 + (d - lo) = s + (d + 1 - lo) := by omega
      rw [this]
    · have hl : lo = d + 1 := by omega
      rw [extBack, if_neg (by omega : ¬ (lo < d + 1 ∧ lo < d + 1 ∧
        a.getD d default = a.getD (d + 1 - 1) default))]
      rw [hl]
      simp

lemma extFwdAux_diag (a : List Char) (hi lo : Nat) :
    ∀ fuel s, lo + s + fuel = hi → extFwdAux a a hi hi lo lo fuel s = hi - lo := by
  intro fuel
  induction fuel with
  | zero =>
    intro s hk
    simp only [extFwdAux]
    omega
  | succ f ih =>
    intro s hk
    rw [extFwdAux, if_pos ⟨by omega, by omega, rfl⟩]
    exact ih (s + 1) (by omega)

lemma extFwd_diag (a : List Char) (hi lo : Nat) :
    ∀ s, lo + s ≤ hi → extFwd a a hi hi lo lo s = hi - lo := by
  intro s h
  exact extFwdAux_diag a hi lo (hi - (lo + s)) s (by omega)

/-- `find_longest_match` on two copies of the same sequence and a square
range returns the whole range. -/
lemma findLongestMatch_self
    (Hgood : ∀ c j, j ∈ bjf c ↔ pop c = false ∧ j < a.length ∧ a.getD j default = c)
    (Hpair : ∀ c, (bjf c).Pairwise (· < ·))
    (hhi : hi ≤ a.length) (hlohi : lo ≤ hi) :
    findLongestMatch a a bjf lo hi lo hi = (lo, lo, hi - lo) := by
  have hm := outer_inv Hgood Hpair hhi (hi - lo) lo (Nat.le_refl lo) (by omega)
    (fun _ => 0) (lo, lo, 0)
    (fun j => Nat.zero_le _)
    (fun j => Nat.zero_le _)
    (by
      cases hl : lo with
      | zero => rfl
      | succ l =>
        simp only [prevAt]
        exact (diagrun_zero_of_lt a pop (l + 1) hi l (Nat.lt_succ_self l)).symm)
    rfl (Nat.le_refl lo) (by simp)
    (fun j hj => by rw [diagrun_zero_of_lt a pop lo hi j hj])
  obtain ⟨h1, h2, h3, -⟩ := hm
  simp only [findLongestMatch]
  set m := outerLoop a bjf lo hi (List.range' lo (hi - lo)) (fun _ => 0) (lo, lo, 0) with hmdef
  rw [show m.2.1 = m.1 from h1.symm]
  rw [extBack_diag a lo m.1 m.2.2 h2]
  dsimp only
  rw [extFwd_diag a hi lo (m.2.2 + (m.1 - lo)) (by omega)]

/-- The matched total over two copies of a nonempty sequence is its whole
length. -/
lemma matchTotal_self
    (Hgood : ∀ c j, j ∈ bjf c ↔ pop c = false ∧ j < a.length ∧ a.getD j default = c)
    (Hpair : ∀ c, (bjf c).Pairwise (· < ·))
    (ha : a ≠ []) (fuel : Nat) :
    matchTotal a a bjf (fuel + 1) 0 a.length 0 a.length = a.length := by
  have hlen : 0 < a.length := List.length_pos.mpr ha
  have hflm := @findLongestMatch_self a pop bjf 0 a.length Hgood Hpair
    (Nat.le_refl a.length) (Nat.zero_le _)
  simp only [matchTotal, hflm, Nat.sub_zero, Nat.zero_add]
  rw [if_neg (by omega : ¬ a.length = 0)]
  simp

end SelfSim

/-- `ratio()` of a nonempty sequence against itself is 1. -/
lemma ratioQ_self (a : List Char) (ha : a ≠ []) : ratioQ a a = 1 := by
  have hlen : 0 < a.length := List.length_pos.mpr ha
  unfold ratioQ
  rw [@matchTotal_self a (isPopular a) (b2j a) (fun c j => mem_b2j a c j) (b2j_pairwise a) ha
    (a.length + a.length)]
  rw [if_neg (by omega : ¬ a.length + a.length = 0)]
  have hq : ((a.length : ℚ)) ≠ 0 := by
    exact_mod_cast Nat.pos_iff_ne_zero.mp hlen
  push_cast
  field_simp
  ring

end Difflib

/-!  Order-theoretic facts about the selection orders.  -/

namespace Selection

lemma lcLe_total (x y : Option Int) : lcLe x y ∨ lcLe y x := by
  unfold lcLe
  match x, y with
  | none, _ => left; trivial
  | some t, none => right; trivial
  | some t, some u => rcases le_total t u with h | h
                      · left; exact h
                      · right; exact h

lemma lcLe_trans (x y z : Option Int) : lcLe x y → lcLe y z → lcLe x z := by
  unfold lcLe
  match x, y, z with
  | none, _, _ => intro _ _; trivial
  | some t, none, _ => intro h _; exact absurd h (by simp)
  | some t, some u, none => intro _ h; exact absurd h (by simp)
  | some t, some u, some v => exact le_trans

instance : IsTotal Citation ncLe := ⟨fun a b => lcLe_total a.last_checked b.last_checked⟩

instance : IsTrans Citation ncLe :=
  ⟨fun a b c => lcLe_trans a.last_checked b.last_checked c.last_checked⟩

lemma lcLt_trichotomy (x y : Option Int) : lcLt x y ∨ x = y ∨ lcLt y x := by
  unfold lcLt
  match x, y with
  | none, none => right; left; rfl
  | none, some u => left; trivial
  | some t, none => right; right; trivial
  | some t, some u =>
    rcases lt_trichotomy t u with h | h | h
    · left; exact h
    · right; left; rw [h]
    · right; right; exact h

lemma scLe_total (a b : Citation) : scLe a b ∨ scLe b a := by
  unfold scLe
  rcases lcLt_trichotomy a.last_checked b.last_checked with h | h | h
  · left; left; exact h
  · rcases le_total b.created_at a.created_at with h2 | h2
    · left; right; exact ⟨h, h2⟩
    · right; right; exact ⟨h.symm, h2⟩
  · right; left; exact h

lemma lcLt_trans (x y z : Option Int) : lcLt x y → lcLt y z → lcLt x z := by
  unfold lcLt
  match x, y, z with
  | _, none, none => intro _ h; exact absurd h (by simp)
  | _, some u, none => intro _ h; exact absurd h (by simp)
  | none, none, some v => intro h _; exact absurd h (by simp)
  | none, some u, some v => intro _ _; trivial
  | some t, none, some v => intro h _; exact absurd h (by simp)
  | some t, some u, some v => exact lt_trans

lemma scLe_trans (a b c : Citation) : scLe a b → scLe b c → scLe a c := by
  unfold scLe
  rintro (h1 | ⟨h1, h1c⟩) (h2 | ⟨h2, h2c⟩)
  · left; exact lcLt_trans _ _ _ h1 h2
  · left; rw [← h2]; exact h1
  · left; rw [h1]; exact h2
  · right; exact ⟨h1.trans h2, le_trans h2c h1c⟩

instance : IsTotal Citation scLe := ⟨scLe_total⟩

instance : IsTrans Citation scLe := ⟨fun a b c => scLe_trans a b c⟩

lemma scLe_imp_ncLe (a b : Citation) : scLe a b → ncLe a b := by
  unfold scLe ncLe
  rintro (h | ⟨h, -⟩)
  · unfold lcLt at h
    unfold lcLe
    match hx : a.last_checked, hy : b.last_checked with
    | none, _ => trivial
    | some t, none => rw [hx, hy] at h; exact absurd h (by simp)
    | some t, some u => rw [hx, hy] at h; exact le_of_lt h
  · rw [h]
    unfold lcLe
    match b.last_checked with
    | none => trivial
    | some t => exact le_refl t

end Selection

/-!  Facts about DOI normalization, toward the idempotence analysis.  -/

namespace RetractionWatch

lemma char_toNat_ofNat (n : Nat) (h : n < 55296) : (Char.ofNat n).toNat = n := by
  have hv : n.isValidChar := Or.inl h
  simp only [Char.ofNat, dif_pos hv, Char.toNat, Char.ofNatAux]
  rfl

lemma toLower_toLower (c : Char) : c.toLower.toLower = c.toLower := by
  simp only [Char.toLower]
  by_cases h : c.toNat ≥ 65 ∧ c.toNat ≤ 90
  · rw [if_pos h]
    have hv : (Char.ofNat (c.toNat + 32)).toNat = c.toNat + 32 :=
      char_toNat_ofNat _ (by omega)
    rw [if_neg (by rw [hv]; omega)]
  · rw [if_neg h, if_neg h]

lemma mem_stripStr {c : Char} {s : List Char} (h : c ∈ stripStr s) : c ∈ s := by
  unfold stripStr at h
  have h1 : c ∈ (s.dropWhile isSpacePy).reverse.dropWhile isSpacePy :=
    List.mem_reverse.mp h
  have h2 : c ∈ (s.dropWhile isSpacePy).reverse :=
    (List.dropWhile_sublist _).subset h1
  have h3 : c ∈ s.dropWhile isSpacePy := List.mem_reverse.mp h2
  exact (List.dropWhile_sublist _).subset h3

lemma removeDoiPrefix_cons (c : Char) (cs : List Char)
    (hne : ∀ rest, c = 'd' → cs = 'o' :: 'i' :: ':' :: rest → False) :
    removeDoiPrefix (c :: cs) = c :: removeDoiPrefix cs := by
  rw [removeDoiPrefix.eq_def]
  split
  · rename_i rest heq
    injection heq with h1 h2
    exact absurd (hne rest h1 h2) not_false
  · rename_i c2 cs2 heq2
    injection heq2 with h1 h2
    rw [h1, h2]
  · rename_i heq
    exact absurd heq (by simp)

lemma removeUpperDoi_cons (c : Char) (cs : List Char)
    (hne : ∀ rest, c = 'D' → cs = 'O' :: 'I' :: ':' :: rest → False) :
    removeUpperDoi (c :: cs) = c :: removeUpperDoi cs := by
  rw [removeUpperDoi.eq_def]
  split
  · rename_i rest heq
    injection heq with h1 h2
    exact absurd (hne rest h1 h2) not_false
  · rename_i c2 cs2 heq2
    injection heq2 with h1 h2
    rw [h1, h2]
  · rename_i heq
    exact absurd heq (by simp)

lemma mem_removeDoiPrefix {c : Char} : ∀ {s : List Char}, c ∈ removeDoiPrefix s → c ∈ s := by
  intro s
  induction s using removeDoiPrefix.induct with
  | case1 rest ih =>
    intro h
    simp only [removeDoiPrefix] at h
    exact List.mem_cons_of_mem _ (List.mem_cons_of_mem _
      (List.mem_cons_of_mem _ (List.mem_cons_of_mem _ (ih h))))
  | case2 c2 cs hne ih =>
    intro h
    rw [removeDoiPrefix_cons c2 cs hne] at h
    rcases List.mem_cons.mp h with h | h
    · exact h ▸ List.mem_cons_self _ _
    · exact List.mem_cons_of_mem _ (ih h)
  | case3 =>
    intro h
    simp only [removeDoiPrefix] at h
    exact absurd h (List.not_mem_nil c)

lemma mem_removeUpperDoi {c : Char} : ∀ {s : List Char}, c ∈ removeUpperDoi s → c ∈ s := by
  intro s
  induction s using removeUpperDoi.induct with
  | case1 rest ih =>
    intro h
    simp only [removeUpperDoi] at h
    exact List.mem_cons_of_mem _ (List.mem_cons_of_mem _
      (List.mem_cons_of_mem _ (List.mem_cons_of_mem _ (ih h))))
  | case2 c2 cs hne ih =>
    intro h
    rw [removeUpperDoi_cons c2 cs hne] at h
    rcases List.mem_cons.mp h with h | h
    · exact h ▸ List.mem_cons_self _ _
    · exact List.mem_cons_of_mem _ (ih h)
  | case3 =>
    intro h
    simp only [removeUpperDoi] at h
    exact absurd h (List.not_mem_nil c)

lemma removeDoiPrefix_eq_self :
    ∀ {s : List Char}, ¬ ("doi:".toList <:+: s) → removeDoiPrefix s = s := by
  intro s
  induction s using removeDoiPrefix.induct with
  | case1 rest ih =>
    intro h
    exact absurd ⟨[], rest, rfl⟩ h
  | case2 c2 cs hne ih =>
    intro h
    rw [removeDoiPrefix_cons c2 cs hne, ih (fun hif => h (hif.trans (List.suffix_cons c2 cs).isInfix))]
  | case3 =>
    intro _
    rfl

lemma removeUpperDoi_eq_self :
    ∀ {s : List Char}, ¬ ("DOI:".toList <:+: s) → removeUpperDoi s = s := by
  intro s
  induction s using removeUpperDoi.induct with
  | case1 rest ih =>
    intro h
    exact absurd ⟨[], rest, rfl⟩ h
  | case2 c2 cs hne ih =>
    intro h
    rw [removeUpperDoi_cons c2 cs hne, ih (fun hif => h (hif.trans (List.suffix_cons c2 cs).isInfix))]
  | case3 =>
    intro _
    rfl

lemma dropWhile_eq_self_of_all {p : Char → Bool} :
    ∀ {l : List Char}, (∀ c ∈ l, p c = false) → l.dropWhile p = l := by
  intro l h
  cases l with
  | nil => rfl
  | cons c cs =>
    rw [List.dropWhile_cons, if_neg]
    rw [h c (List.mem_cons_self c cs)]
    exact Bool.false_ne_true

lemma strip_eq_self {s : List Char} (h : ∀ c ∈ s, isSpacePy c = false) : stripStr s = s := by
  unfold stripStr
  rw [dropWhile_eq_self_of_all h,
    dropWhile_eq_self_of_all (fun c hc => h c (List.mem_reverse.mp hc)),
    List.reverse_reverse]

lemma takeWhile_eq_self_of_all {p : Char → Bool} :
    ∀ {l : List Char}, (∀ c ∈ l, p c = true) → l.takeWhile p = l := by
  intro l
  induction l with
  | nil => intro _; rfl
  | cons c cs ih =>
    intro h
    rw [List.takeWhile_cons, if_pos (h c (List.mem_cons_self c cs)),
      ih (fun x hx => h x (List.mem_cons_of_mem _ hx))]

lemma takeWhile_append_stop {p : Char → Bool} {a : Char} :
    ∀ {l1 l2 : List Char}, (∀ c ∈ l1, p c = true) → p a = false →
      (l1 ++ a :: l2).takeWhile p = l1 ∧ (l1 ++ a :: l2).dropWhile p = a :: l2 := by
  intro l1
  induction l1 with
  | nil =>
    intro l2 _ ha
    constructor
    · rw [List.nil_append, List.takeWhile_cons, if_neg (by rw [ha]; exact Bool.false_ne_true)]
    · rw [List.nil_append, List.dropWhile_cons, if_neg (by rw [ha]; exact Bool.false_ne_true)]
  | cons c cs ih =>
    intro l2 h ha
    have hc : p c = true := h c (List.mem_cons_self c cs)
    have htail := @ih l2 (fun x hx => h x (List.mem_cons_of_mem _ hx)) ha
    constructor
    · rw [List.cons_append, List.takeWhile_cons, if_pos hc, htail.1]
    · rw [List.cons_append, List.dropWhile_cons, if_pos hc, htail.2]

lemma isDigit_not_space {c : Char} (h : c.isDigit = true) : isSpacePy c = false := by
  cases hsp : isSpacePy c
  · rfl
  · exfalso
    unfold isSpacePy at hsp
    simp only [Bool.or_eq_true, decide_eq_true_eq] at hsp
    rcases hsp with ((((h1 | h1) | h1) | h1) | h1) | h1 <;> subst h1 <;>
      exact absurd h (by decide)

lemma allowed_not_space {c : Char} (h : isAllowedSuffixChar c = true) : isSpacePy c = false := by
  unfold isAllowedSuffixChar at h
  cases hsp : isSpacePy c
  · rfl
  · rw [hsp] at h
    simp at h

/-- The canonical form of a DOI-pattern match. -/
def MatchShape (o : List Char) : Prop :=
  ∃ ds suf, o = '1' :: '0' :: '.' :: (ds ++ '/' :: suf) ∧
    (∀ c ∈ ds, c.isDigit = true) ∧ 4 ≤ ds.length ∧
    (∀ c ∈ suf, isAllowedSuffixChar c = true) ∧ suf ≠ []

lemma matchDoiAt_shape {s o : List Char} (h : matchDoiAt s = some o) :
    MatchShape o ∧ o <+: s := by
  rw [matchDoiAt.eq_def] at h
  split at h
  · rename_i rest
    simp only at h
    split at h
    · rename_i hlen
      split at h
      · rename_i rest2 heq
        split at h
        · exact absurd h (by simp)
        · rename_i hsufne
          injection h with h
          subst h
          obtain ⟨t, ht⟩ := List.takeWhile_prefix (p := isAllowedSuffixChar) (l := rest2)
          constructor
          · exact ⟨rest.takeWhile Char.isDigit, rest2.takeWhile isAllowedSuffixChar, rfl,
              fun c hc => List.mem_takeWhile_imp hc, hlen,
              fun c hc => List.mem_takeWhile_imp hc, hsufne⟩
          · refine ⟨t, ?_⟩
            have hsplit : rest.takeWhile Char.isDigit ++ '/' :: rest2 = rest := by
              rw [← heq]
              exact List.takeWhile_append_dropWhile Char.isDigit rest
            calc ('1' :: '0' :: '.' :: (rest.takeWhile Char.isDigit ++ '/'
                    :: rest2.takeWhile isAllowedSuffixChar)) ++ t
                = '1' :: '0' :: '.' :: (rest.takeWhile Char.isDigit ++ '/'
                    :: (rest2.takeWhile isAllowedSuffixChar ++ t)) := by
                  simp [List.append_assoc]
              _ = '1' :: '0' :: '.' :: (rest.takeWhile Char.isDigit ++ '/' :: rest2) := by
                  rw [ht]
              _ = '1' :: '0' :: '.' :: rest := by rw [hsplit]
      · exact absurd h (by simp)
    · exact absurd h (by simp)
  · exact absurd h (by simp)

lemma searchDoi_some {s o : List Char} (h : searchDoi s = some o) :
    MatchShape o ∧ o <:+: s := by
  induction s with
  | nil => exact absurd h (by simp [searchDoi])
  | cons c cs ih =>
    rw [searchDoi] at h
    cases hm : matchDoiAt (c :: cs) with
    | some m =>
      rw [hm] at h
      injection h with h
      subst h
      obtain ⟨hs, hp⟩ := matchDoiAt_shape hm
      exact ⟨hs, hp.isInfix⟩
    | none =>
      rw [hm] at h
      obtain ⟨hs, hi⟩ := ih h
      exact ⟨hs, hi.trans (List.suffix_cons c cs).isInfix⟩

lemma matchDoiAt_cons_eq (rest : List Char) :
    matchDoiAt ('1' :: '0' :: '.' :: rest) =
      (if 4 ≤ (rest.takeWhile Char.isDigit).length then
        (match rest.dropWhile Char.isDigit with
          | '/' :: rest2 =>
            if rest2.takeWhile isAllowedSuffixChar = [] then none
            else some ('1' :: '0' :: '.' :: (rest.takeWhile Char.isDigit ++ '/'
              :: rest2.takeWhile isAllowedSuffixChar))
          | _ => none)
      else none) := rfl

lemma matchDoiAt_of_shape {o : List Char} (h : MatchShape o) : matchDoiAt o = some o := by
  obtain ⟨ds, suf, ho, hds, hlen, hsuf, hne⟩ := h
  subst ho
  have hsd : Char.isDigit '/' = false := by decide
  obtain ⟨htake, hdrop⟩ := @takeWhile_append_stop Char.isDigit '/' ds suf hds hsd
  rw [matchDoiAt_cons_eq, htake, if_pos hlen, hdrop]
  have hsuftake : suf.takeWhile isAllowedSuffixChar = suf := takeWhile_eq_self_of_all hsuf
  simp only [hsuftake, if_neg hne]

lemma searchDoi_of_shape {o : List Char} (h : MatchShape o) : searchDoi o = some o := by
  have hm := matchDoiAt_of_shape h
  obtain ⟨ds, suf, ho, -, -, -, -⟩ := h
  rw [ho] at hm ⊢
  rw [searchDoi, hm]

lemma shape_nospace {o : List Char} (h : MatchShape o) : ∀ c ∈ o, isSpacePy c = false := by
  obtain ⟨ds, suf, ho, hds, -, hsuf, -⟩ := h
  subst ho
  intro c hc
  rcases List.mem_cons.mp hc with h1 | hc
  · subst h1; decide
  rcases List.mem_cons.mp hc with h1 | hc
  · subst h1; decide
  rcases List.mem_cons.mp hc with h1 | hc
  · subst h1; decide
  rcases List.mem_append.mp hc with hd | hs
  · exact isDigit_not_space (hds c hd)
  · rcases List.mem_cons.mp hs with h1 | hs
    · subst h1; decide
    · exact allowed_not_space (hsuf c hs)

lemma shape_ne_nil {o : List Char} (h : MatchShape o) : o ≠ [] := by
  obtain ⟨ds, suf, ho, -⟩ := h
  rw [ho]
  exact List.cons_ne_nil _ _

lemma lowerStr_eq_self :
    ∀ {s : List Char}, (∀ c ∈ s, ∃ c0, c = Char.toLower c0) → lowerStr s = s := by
  intro s
  induction s with
  | nil => intro _; rfl
  | cons c cs ih =>
    intro h
    obtain ⟨c0, hc0⟩ := h c (List.mem_cons_self c cs)
    show c.toLower :: lowerStr cs = c :: cs
    rw [ih (fun x hx => h x (List.mem_cons_of_mem _ hx)), hc0, toLower_toLower]

lemma mem_preprocess_lower {d : List Char} {c : Char} (h : c ∈ preprocessDoi d) :
    ∃ c0, c = Char.toLower c0 := by
  unfold preprocessDoi at h
  have h1 := mem_removeDoiPrefix (mem_removeUpperDoi (mem_stripStr h))
  obtain ⟨c0, -, hc⟩ := List.mem_map.mp h1
  exact ⟨c0, hc.symm⟩

/-- Core of the amended idempotence: a normalization output that does not
embed a `doi:`/`DOI:` marker normalizes to itself. -/
lemma normalize_doi_output_fixed {d o : List Char} (h : normalize_doi d = some o)
    (hnd : ¬ ("doi:".toList <:+: o)) (hnD : ¬ ("DOI:".toList <:+: o)) :
    normalize_doi o = some o := by
  unfold normalize_doi at h
  by_cases hd : d = []
  · rw [if_pos hd] at h
    exact absurd h (by simp)
  · rw [if_neg hd] at h
    obtain ⟨hshape, hinf⟩ := searchDoi_some h
    have hlower : ∀ c ∈ o, ∃ c0, c = Char.toLower c0 :=
      fun c hc => mem_preprocess_lower (hinf.subset hc)
    have hnospace : ∀ c ∈ o, isSpacePy c = false := shape_nospace hshape
    unfold normalize_doi
    rw [if_neg (shape_ne_nil hshape)]
    unfold preprocessDoi
    rw [strip_eq_self hnospace, lowerStr_eq_self hlower,
      removeDoiPrefix_eq_self hnd, removeUpperDoi_eq_self hnD,
      strip_eq_self hnospace]
    exact searchDoi_of_shape hshape

end RetractionWatch

/-- C9 (counterexample): DOI normalization is not idempotent — the
embedded marker in `10.1234/adodoi:i:b` survives one `replace` pass, so
the first normalization returns `10.1234/adoi:b` while normalizing that
output strips the marker again and returns `10.1234/ab`.  Moreover the
literal reading of "strings without the pattern normalize to absent"
fails: `10.doi:1234/abc` contains no `10.` + digits + `/` pattern (the
search on the raw string misses), yet it normalizes to `10.1234/abc`
because the `doi:` removal creates the pattern. -/
theorem C9_counterexample :
    RetractionWatch.normalize_doi "10.1234/adodoi:i:b".toList
      = some "10.1234/adoi:b".toList ∧
    RetractionWatch.normalize_doi "10.1234/adoi:b".toList
      = some "10.1234/ab".toList ∧
    "10.1234/adoi:b".toList ≠ "10.1234/ab".toList ∧
    RetractionWatch.searchDoi "10.doi:1234/abc".toList = none ∧
    RetractionWatch.normalize_doi "10.doi:1234/abc".toList
      = some "10.1234/abc".toList := by
  refine ⟨?_, ?_, ?_, ?_, ?_⟩ <;> decide

/-- C9 (amended): normalization is idempotent on every input whose
normalized form does not embed a `doi:`/`DOI:` marker (in general a
marker can survive one removal pass and be stripped by re-normalization);
an input on which the pattern search over the canonicalised string fails
normalizes to absent; and the cache lookup is case-insensitive:
`10.1234/ABC` finds the cached record stored under `10.1234/abc`. -/
theorem C9_normalization :
    (∀ d o : List Char, RetractionWatch.normalize_doi d = some o →
      ¬ ("doi:".toList <:+: o) → ¬ ("DOI:".toList <:+: o) →
      RetractionWatch.normalize_doi o = some o) ∧
    (∀ d : List Char,
      RetractionWatch.searchDoi (RetractionWatch.preprocessDoi d) = none →
      RetractionWatch.normalize_doi d = none) ∧
    RetractionWatch.check_doi
        [⟨"10.1234/abc".toList, "T", none, none, "retraction_watch"⟩]
        "10.1234/ABC".toList
      = some ⟨"10.1234/abc".toList, "T", none, none, "retraction_watch"⟩ := by
  refine ⟨fun d o h h1 h2 => RetractionWatch.normalize_doi_output_fixed h h1 h2,
    fun d h => ?_, by decide⟩
  unfold RetractionWatch.normalize_doi
  by_cases hd : d = []
  · rw [if_pos hd]
  · rw [if_neg hd, h]

/-- C9 (witness): the amended normalization facts at concrete inputs. -/
theorem C9_witness :
    RetractionWatch.normalize_doi "10.1234/xyz".toList = some "10.1234/xyz".toList ∧
    RetractionWatch.normalize_doi "hello world".toList = none := by
  constructor
  · exact C9_normalization.1 "DOI: 10.1234/XYZ".toList "10.1234/xyz".toList
      (by decide) (by decide) (by decide)
  · exact C9_normalization.2.1 "hello world".toList (by decide)

/-!  Claim theorems.  -/

/-!  Claim theorems.  -/

/-!  Claim theorems.  -/

/-- C2 (counterexample): a retraction-agent run over one citation whose
check completes cleanly (`ok none`) stamps no citation at all — the
staleness timestamp of the cleanly checked citation is not updated, against
the claim that every clean detector completion updates it. -/
theorem C2_counterexample :
    (Runs.retraction_run (fun _ => Except.ok none)
      [⟨7, "A", none, some "10.1/x".toList, none, none, none, none, 0⟩]).2 = [] := rfl

/-- C2 (amended): in the broken-link run (and the source-change run, whose
loop body is identical), the citations stamped are exactly those whose
detector call completed cleanly, in order — an exception skips the stamp
and the loop continues; the retraction run never stamps any citation. -/
theorem C2_stamping :
    (∀ (det : Citation → Except Unit (Option Finding)) (cs : List Citation),
      (Runs.broken_link_run det cs).2
        = (cs.filter (fun c => Runs.isClean (det c))).map (fun c => c.id)) ∧
    (∀ (det : Citation → Except Unit (Option Finding)) (cs : List Citation),
      (Runs.retraction_run det cs).2 = []) := by
  constructor
  · intro det cs
    induction cs with
    | nil => rfl
    | cons c cs ih =>
      cases h : det c with
      | error e =>
        simp [Runs.broken_link_run, h, Runs.isClean, ih]
      | ok fo =>
        cases fo <;> simp [Runs.broken_link_run, h, Runs.isClean, ih]
  · intro det cs
    induction cs with
    | nil => rfl
    | cons c cs ih =>
      cases h : det c with
      | error e => simp [Runs.retraction_run, h, ih]
      | ok fo => cases fo <;> simp [Runs.retraction_run, h, ih]

/-- C3 (counterexample): the retraction detector's selection
(`get_citations_with_dois`) has no `LIMIT`: a database holding two
DOI-bearing citations yields a selection of two rows, exceeding a batch
limit of one. -/
theorem C3_counterexample :
    (Selection.get_citations_with_dois
      [⟨1, "A", none, some "10.1/a".toList, none, none, none, none, 0⟩,
       ⟨2, "B", none, some "10.1/b".toList, none, none, none, none, 0⟩]).length = 2 ∧
    ¬ ((Selection.get_citations_with_dois
      [⟨1, "A", none, some "10.1/a".toList, none, none, none, none, 0⟩,
       ⟨2, "B", none, some "10.1/b".toList, none, none, none, none, 0⟩]).length ≤ 1) := by
  constructor
  · rfl
  · decide

/-- C3 (amended): the broken-link selection pulls at most `limit` citations
satisfying its predicate (staleness window and a URL present), ordered
never-checked-first then oldest-checked-first; the source-change selection
pulls at most `limit` citations having both a snapshot and a URL, in the
same order; the retraction selection pulls every citation with a DOI, with
no limit and no ordering clause. -/
theorem C3_selection :
    (∀ (db : List Citation) (now days : Int) (limit : Nat),
      (Selection.get_citations_needing_check db now days limit).length ≤ limit ∧
      (∀ c, c ∈ Selection.get_citations_needing_check db now days limit →
        c ∈ db ∧ Selection.needsCheck now days c = true) ∧
      (Selection.get_citations_needing_check db now days limit).Sorted Selection.ncLe) ∧
    (∀ (db : List Citation) (limit : Nat),
      (Selection.source_change_selection db limit).length ≤ limit ∧
      (∀ c, c ∈ Selection.source_change_selection db limit →
        c ∈ db ∧ c.snapshot_url.isSome ∧ c.source_url.isSome) ∧
      (Selection.source_change_selection db limit).Sorted Selection.ncLe) ∧
    (∀ (db : List Citation) (c : Citation),
      c ∈ Selection.get_citations_with_dois db ↔ c ∈ db ∧ c.source_doi.isSome) := by
  refine ⟨fun db now days limit => ⟨List.length_take_le _ _, fun c hc => ?_, ?_⟩,
    fun db limit => ⟨List.length_take_le _ _, fun c hc => ?_, ?_⟩,
    fun db c => ?_⟩
  · have h1 : c ∈ (db.filter (Selection.needsCheck now days)).insertionSort Selection.ncLe :=
      List.mem_of_mem_take hc
    have h2 := (List.perm_insertionSort Selection.ncLe
      (db.filter (Selection.needsCheck now days))).mem_iff.mp h1
    have h3 := List.mem_filter.mp h2
    exact ⟨h3.1, h3.2⟩
  · exact (List.sorted_insertionSort Selection.ncLe _).sublist (List.take_sublist _ _)
  · have h1 : c ∈ (db.filter
        (fun c => c.snapshot_url.isSome && c.source_url.isSome)).insertionSort Selection.scLe :=
      List.mem_of_mem_take hc
    have h2 := (List.perm_insertionSort Selection.scLe _).mem_iff.mp h1
    have h3 := List.mem_filter.mp h2
    refine ⟨h3.1, ?_, ?_⟩
    · exact (Bool.and_eq_true _ _ |>.mp h3.2).1
    · exact (Bool.and_eq_true _ _ |>.mp h3.2).2
  · have hs := (List.sorted_insertionSort Selection.scLe
      (db.filter (fun c => c.snapshot_url.isSome && c.source_url.isSome)))
    have hs2 : (Selection.source_change_selection db limit).Sorted Selection.scLe :=
      hs.sublist (List.take_sublist _ _)
    exact hs2.imp (fun h => Selection.scLe_imp_ncLe _ _ h)
  · constructor
    · intro h
      have h3 := List.mem_filter.mp h
      exact ⟨h3.1, h3.2⟩
    · intro h
      exact List.mem_filter.mpr ⟨h.1, h.2⟩

/-- C3 (witness): the amended selection properties instantiated on concrete
one-row databases. -/
theorem C3_witness :
    ((Selection.get_citations_needing_check
        [⟨1, "A", some "http://x/".toList, none, none, none, none, none, 0⟩]
        10 1 5).length ≤ 5) ∧
    ((⟨1, "A", some "http://x/".toList, none, none, none, none, none, 0⟩ : Citation) ∈
        ([⟨1, "A", some "http://x/".toList, none, none, none, none, none, 0⟩] : List Citation) ∧
      Selection.needsCheck 10 1
        ⟨1, "A", some "http://x/".toList, none, none, none, none, none, 0⟩ = true) ∧
    ((⟨2, "B", some "http://y/".toList, none, none, none, some "s".toList, none, 0⟩ : Citation)
        ∈ ([⟨2, "B", some "http://y/".toList, none, none, none, some "s".toList, none, 0⟩]
          : List Citation) ∧
      (⟨2, "B", some "http://y/".toList, none, none, none, some "s".toList, none,
        0⟩ : Citation).snapshot_url.isSome ∧
      (⟨2, "B", some "http://y/".toList, none, none, none, some "s".toList, none,
        0⟩ : Citation).source_url.isSome) := by
  refine ⟨(C3_selection.1 _ 10 1 5).1, ?_, ?_⟩
  · exact (C3_selection.1 [⟨1, "A", some "http://x/".toList, none, none, none, none, none, 0⟩]
      10 1 5).2.1 _ (by decide)
  · exact (C3_selection.2.1
      [⟨2, "B", some "http://y/".toList, none, none, none, some "s".toList, none, 0⟩] 3).2.1
      _ (by decide)

/-- C5: the retraction fallback chain queries a prefix of
(cache, PubMed, CrossRef) in that order; the cache is always queried;
PubMed is queried exactly when the cache missed and remote lookups are
enabled; CrossRef exactly when additionally PubMed missed; a cache hit
stops the chain at the cache, and with remote lookups disabled only the
cache is ever consulted. -/
theorem C5_chain_order :
    ∀ useApis cacheHit pubmedHit crossrefHit : Bool,
      ((RetractionChain.resolveChain useApis cacheHit pubmedHit crossrefHit).2
        <+: [RetractionChain.Source.cache, RetractionChain.Source.pubmed,
             RetractionChain.Source.crossref]) ∧
      (RetractionChain.Source.cache
        ∈ (RetractionChain.resolveChain useApis cacheHit pubmedHit crossrefHit).2) ∧
      (RetractionChain.Source.pubmed
          ∈ (RetractionChain.resolveChain useApis cacheHit pubmedHit crossrefHit).2 ↔
        useApis = true ∧ cacheHit = false) ∧
      (RetractionChain.Source.crossref
          ∈ (RetractionChain.resolveChain useApis cacheHit pubmedHit crossrefHit).2 ↔
        useApis = true ∧ cacheHit = false ∧ pubmedHit = false) ∧
      ((RetractionChain.resolveChain useApis true pubmedHit crossrefHit).2
        = [RetractionChain.Source.cache]) ∧
      ((RetractionChain.resolveChain false cacheHit pubmedHit crossrefHit).2
        = [RetractionChain.Source.cache]) := by
  decide

/-- C6: the drift decision signals exactly when `similarity < threshold`;
equality at the threshold yields no signal; a produced signal is HIGH
exactly when additionally `similarity ≤ 0.50` and MEDIUM exactly when
`similarity > 0.50`; the default threshold constant is 0.80. -/
theorem C6_drift_decision :
    (∀ s t : ℚ, (source_change_decision s t).isSome ↔ s < t) ∧
    (∀ t : ℚ, source_change_decision t t = none) ∧
    (∀ s t : ℚ, source_change_decision s t = some Severity.high ↔ s < t ∧ s ≤ 1 / 2) ∧
    (∀ s t : ℚ, source_change_decision s t = some Severity.medium ↔ s < t ∧ 1 / 2 < s) ∧
    DEFAULT_SIMILARITY_THRESHOLD = 4 / 5 := by
  refine ⟨fun s t => ?_, fun t => ?_, fun s t => ?_, fun s t => ?_, by norm_num
    [DEFAULT_SIMILARITY_THRESHOLD]⟩
  · unfold source_change_decision
    by_cases h : s < t <;> simp [h]
  · unfold source_change_decision
    simp
  · unfold source_change_decision
    by_cases h : s < t
    · by_cases h2 : 1 / 2 < s <;> simp [h, h2] <;> omega
    · simp [h]
  · unfold source_change_decision
    by_cases h : s < t
    · by_cases h2 : 1 / 2 < s <;> simp [h, h2] <;> omega
    · simp [h]

/-- C8: the homepage-redirect predicate holds exactly when both URLs parse,
share the exact netloc, and the final URL's path lies in the homepage path
set; and a concrete cross-domain redirect to a root path yields `false`. -/
theorem C8_homepage_redirect :
    (∀ o f : List Char,
      UrlCheck.is_homepage_redirect o f = true ↔
        ∃ n po pf, UrlCheck.parseUrl o = some (n, po) ∧
          UrlCheck.parseUrl f = some (n, pf) ∧ pf ∈ UrlCheck.homepagePaths) ∧
    UrlCheck.is_homepage_redirect "http://a.com/page".toList "http://b.com/".toList = false := by
  constructor
  · intro o f
    unfold UrlCheck.is_homepage_redirect
    cases ho : UrlCheck.parseUrl o with
    | none => simp
    | some po =>
      cases hf : UrlCheck.parseUrl f with
      | none => simp
      | some pf =>
        by_cases hn : po.1 = pf.1
        · simp only [if_pos hn, decide_eq_true_eq]
          constructor
          · intro hmem
            exact ⟨po.1, po.2, pf.2, rfl, by rw [hn], hmem⟩
          · rintro ⟨n, p1, p2, h1, h2, hmem⟩
            injection h1 with h1
            injection h2 with h2
            rw [h2]
            exact hmem
        · simp only [if_neg hn, Bool.false_eq_true, false_iff]
          rintro ⟨n, p1, p2, h1, h2, -⟩
          injection h1 with h1
          injection h2 with h2
          apply hn
          rw [h1, h2]
  · decide

/-- A response classified by `check_url` satisfies the result invariant:
accessible results carry no error and no homepage flag, inaccessible ones
carry an error string. -/
theorem C10_check_url_invariant :
    ∀ (url : List Char) (headO getO : UrlCheck.HttpOutcome),
      ((UrlCheck.check_url url headO getO).accessible = true →
        (UrlCheck.check_url url headO getO).error = none ∧
        (UrlCheck.check_url url headO getO).redirects_to_homepage = false) ∧
      ((UrlCheck.check_url url headO getO).accessible = false →
        (UrlCheck.check_url url headO getO).error.isSome = true) := by
  have hclass : ∀ (url : List Char) (r : UrlCheck.HttpResponse),
      ((UrlCheck.classifyResponse url r).accessible = true →
        (UrlCheck.classifyResponse url r).error = none ∧
        (UrlCheck.classifyResponse url r).redirects_to_homepage = false) ∧
      ((UrlCheck.classifyResponse url r).accessible = false →
        (UrlCheck.classifyResponse url r).error.isSome = true) := by
    intro url r
    unfold UrlCheck.classifyResponse
    split
    · exact ⟨fun h => absurd h (by simp), fun _ => rfl⟩
    · split
      · exact ⟨fun h => absurd h (by simp), fun _ => rfl⟩
      · exact ⟨fun _ => ⟨rfl, rfl⟩, fun h => absurd h (by simp)⟩
  intro url headO getO
  unfold UrlCheck.check_url
  cases UrlCheck.clientRequest headO with
  | some r => exact hclass url r
  | none =>
    cases UrlCheck.clientRequest getO with
    | some r => exact hclass url r
    | none => exact ⟨fun h => absurd h (by simp), fun _ => rfl⟩

/-- C10 (witness): the invariant instantiated at a concrete accessible
outcome and a concrete failing outcome. -/
theorem C10_witness :
    ((UrlCheck.check_url "http://a.com/p".toList
        (UrlCheck.HttpOutcome.response ⟨200, "http://a.com/p".toList⟩)
        UrlCheck.HttpOutcome.failure).error = none ∧
      (UrlCheck.check_url "http://a.com/p".toList
        (UrlCheck.HttpOutcome.response ⟨200, "http://a.com/p".toList⟩)
        UrlCheck.HttpOutcome.failure).redirects_to_homepage = false) ∧
    (UrlCheck.check_url "http://a.com/p".toList UrlCheck.HttpOutcome.failure
      UrlCheck.HttpOutcome.failure).error.isSome = true := by
  constructor
  · exact (C10_check_url_invariant "http://a.com/p".toList
      (UrlCheck.HttpOutcome.response ⟨200, "http://a.com/p".toList⟩)
      UrlCheck.HttpOutcome.failure).1 (by decide)
  · exact (C10_check_url_invariant "http://a.com/p".toList UrlCheck.HttpOutcome.failure
      UrlCheck.HttpOutcome.failure).2 (by decide)

/-- C1 (code bug): a URL whose server answers both the HEAD probe and the
GET fallback with a terminal HTTP 404 response.  `raise_for_status` inside
`HTTPClient.head`/`HTTPClient.get` turns every 4xx/5xx response into
`None`, so `check_url`'s own `HTTP_ERROR_CODES` branch is unreachable: the
check reports `Connection failed` with no status code, and the resulting
finding gets severity `medium` — against the claim (and the explicit
`check_url` branch) demanding `error = "HTTP 404"`, `status_code = 404`
and severity `high`.  The second conjunct evaluates the orphaned
classification branch itself, showing what the code intends for a 404 that
reaches it. -/
theorem C1_http404_yields_connection_failed :
    (UrlCheck.check_url "http://example.com/page".toList
      (UrlCheck.HttpOutcome.response ⟨404, "http://example.com/page".toList⟩)
      (UrlCheck.HttpOutcome.response ⟨404, "http://example.com/page".toList⟩)
      = { accessible := false, status_code := none,
          error := some "Connection failed", redirects_to_homepage := false }) ∧
    (UrlCheck.classifyResponse "http://example.com/page".toList
        ⟨404, "http://example.com/page".toList⟩
      = { accessible := false, status_code := some 404,
          error := some "HTTP 404", redirects_to_homepage := false }) ∧
    (BrokenLink.check_citation
        ⟨1, "Article", some "http://example.com/page".toList, none, none, none, none, none, 0⟩
        (UrlCheck.HttpOutcome.response ⟨404, "http://example.com/page".toList⟩)
        (UrlCheck.HttpOutcome.response ⟨404, "http://example.com/page".toList⟩)
        none
      = some { citation_id := 1, wikipedia_article := "Article",
               problem_type := ProblemType.broken_link,
               details := "URL http://example.com/page is not accessible: Connection failed",
               severity := Severity.medium }) := by
  refine ⟨rfl, ?_, ?_⟩ <;> decide

/-- C4: the triage oracle fails open — an unconfigured or clientless oracle
accepts every signal and leaves details unchanged; an oracle whose backend
raises on every call does the same; consequently a broken-link signal for
an inaccessible URL still becomes a finding (with its original details)
when every oracle call raises. -/
theorem C4_triage_fail_open :
    (∀ (t : Triage.LLMTriage) (pt details ctx : String),
      t.enabled = false ∨ t.client = none →
      Triage.is_real_problem t pt details ctx = true ∧
      Triage.explain_finding t pt details ctx = details) ∧
    (∀ (f : String → Except String String) (pt details ctx : String),
      (∀ p, ∃ msg, f p = Except.error msg) →
      Triage.is_real_problem ⟨true, some f⟩ pt details ctx = true ∧
      Triage.explain_finding ⟨true, some f⟩ pt details ctx = details) ∧
    (∀ (c : Citation) (url : List Char) (headO getO : UrlCheck.HttpOutcome)
        (f : String → Except String String),
      c.source_url = some url →
      (UrlCheck.check_url url headO getO).accessible = false →
      (∀ p, ∃ msg, f p = Except.error msg) →
      BrokenLink.check_citation c headO getO (some ⟨true, some f⟩)
        = some { citation_id := c.id, wikipedia_article := c.wikipedia_article,
                 problem_type := ProblemType.broken_link,
                 details := BrokenLink.bl_details url (UrlCheck.check_url url headO getO),
                 severity := if (UrlCheck.check_url url headO getO).status_code = some 404
                     ∨ (UrlCheck.check_url url headO getO).status_code = some 410
                   then Severity.high else Severity.medium }) := by
  have hrp : ∀ (f : String → Except String String) (pt details ctx : String),
      (∀ p, ∃ msg, f p = Except.error msg) →
      Triage.is_real_problem ⟨true, some f⟩ pt details ctx = true ∧
      Triage.explain_finding ⟨true, some f⟩ pt details ctx = details := by
    intro f pt details ctx hthrow
    obtain ⟨msg, hmsg⟩ := hthrow (Triage.promptContext pt details ctx)
    constructor
    · unfold Triage.is_real_problem
      simp [hmsg]
    · unfold Triage.explain_finding
      simp [hmsg]
  refine ⟨?_, hrp, ?_⟩
  · intro t pt details ctx h
    rcases h with h | h
    · unfold Triage.is_real_problem Triage.explain_finding
      simp [h]
    · unfold Triage.is_real_problem Triage.explain_finding
      rw [h]
      constructor <;> split <;> rfl
  · intro c url headO getO f hurl hacc hthrow
    unfold BrokenLink.check_citation
    rw [hurl]
    simp only [hacc, Bool.false_eq_true, if_false]
    rw [(hrp f "broken_link" (BrokenLink.bl_details url (UrlCheck.check_url url headO getO))
      (BrokenLink.bl_context c url) hthrow).1]
    rw [(hrp f "broken_link" (BrokenLink.bl_details url (UrlCheck.check_url url headO getO))
      (BrokenLink.bl_context c url) hthrow).2]
    rfl

/-- C4 (witness): the fail-open behaviour at a concrete unconfigured
oracle, a concrete always-raising oracle, and a concrete citation whose
two probes both fail at transport level. -/
theorem C4_witness :
    (Triage.is_real_problem ⟨false, none⟩ "broken_link" "d" "ctx" = true ∧
      Triage.explain_finding ⟨false, none⟩ "broken_link" "d" "ctx" = "d") ∧
    (Triage.is_real_problem ⟨true, some (fun _ => Except.error "boom")⟩ "broken_link" "d" "ctx"
        = true ∧
      Triage.explain_finding ⟨true, some (fun _ => Except.error "boom")⟩ "broken_link" "d" "ctx"
        = "d") ∧
    BrokenLink.check_citation
        ⟨1, "Article", some "http://a.com/p".toList, none, none, none, none, none, 0⟩
        UrlCheck.HttpOutcome.failure UrlCheck.HttpOutcome.failure
        (some ⟨true, some (fun _ => Except.error "boom")⟩)
      = some { citation_id := 1, wikipedia_article := "Article",
               problem_type := ProblemType.broken_link,
               details := BrokenLink.bl_details "http://a.com/p".toList
                 (UrlCheck.check_url "http://a.com/p".toList UrlCheck.HttpOutcome.failure
                   UrlCheck.HttpOutcome.failure),
               severity := Severity.medium } := by
  refine ⟨C4_triage_fail_open.1 ⟨false, none⟩ "broken_link" "d" "ctx" (Or.inl rfl),
    C4_triage_fail_open.2.1 (fun _ => Except.error "boom") "broken_link" "d" "ctx"
      (fun p => ⟨"boom", rfl⟩), ?_⟩
  have h := C4_triage_fail_open.2.2
    ⟨1, "Article", some "http://a.com/p".toList, none, none, none, none, none, 0⟩
    "http://a.com/p".toList UrlCheck.HttpOutcome.failure UrlCheck.HttpOutcome.failure
    (fun _ => Except.error "boom") rfl (by decide) (fun p => ⟨"boom", rfl⟩)
  rw [h]
  rfl

/-- C7 (counterexample): `similarity(x, x) = 1.0` fails at the empty text,
where the guard returns `0.0`; and the ratio is not symmetric —
`similarity("ab", "bacb") = 2/3` but `similarity("bacb", "ab") = 1/3`. -/
theorem C7_counterexample :
    calculate_similarity [] [] = 0 ∧
    calculate_similarity "ab".toList "bacb".toList
      ≠ calculate_similarity "bacb".toList "ab".toList := by
  constructor
  · rfl
  · have hM1 : Difflib.matchTotal "ab".toList "bacb".toList (Difflib.b2j "bacb".toList)
        ("ab".toList.length + "bacb".toList.length + 1) 0 "ab".toList.length 0
        "bacb".toList.length = 2 := by decide
    have hM2 : Difflib.matchTotal "bacb".toList "ab".toList (Difflib.b2j "ab".toList)
        ("bacb".toList.length + "ab".toList.length + 1) 0 "bacb".toList.length 0
        "ab".toList.length = 1 := by decide
    have e1 : calculate_similarity "ab".toList "bacb".toList = 2 / 3 := by
      unfold calculate_similarity
      rw [if_neg (by decide)]
      simp only [Difflib.ratioQ, hM1]
      rw [if_neg (by decide)]
      norm_num
    have e2 : calculate_similarity "bacb".toList "ab".toList = 1 / 3 := by
      unfold calculate_similarity
      rw [if_neg (by decide)]
      simp only [Difflib.ratioQ, hM2]
      rw [if_neg (by decide)]
      norm_num
    rw [e1, e2]
    norm_num

/-- C7 (amended): `similarity(x, x) = 1.0` for every nonempty text `x`,
`similarity(x, "") = 0.0` for every text `x` (the symmetry part of the
claim is false, see the counterexample). -/
theorem C7_similarity :
    (∀ x : List Char, x ≠ [] → calculate_similarity x x = 1) ∧
    (∀ x : List Char, calculate_similarity x [] = 0) := by
  constructor
  · intro x hx
    unfold calculate_similarity
    rw [if_neg (by simp [hx])]
    exact Difflib.ratioQ_self x hx
  · intro x
    unfold calculate_similarity
    rw [if_pos (Or.inr rfl)]

/-- C7 (witness): the amended similarity facts at concrete texts. -/
theorem C7_witness :
    calculate_similarity "ab".toList "ab".toList = 1 ∧
    calculate_similarity "xy".toList [] = 0 :=
  ⟨C7_similarity.1 "ab".toList (by decide), C7_similarity.2 "xy".toList⟩

end WikiVerify
